import Mathlib

/-!
# Verification of the gometer metrics core

A shallow embedding, in Lean 4, of the two components of the gometer
repository:

* `meter/meter_distribution.go`: a reservoir-sampling aggregator
  (`Distribution` / `distribution`) with `Record`, `Read` and `ReadMeter`.
* the carbon reporter (`CarbonHandler`) with `init`, `connect`, `sleep`
  and `send`.

Modelling conventions:

* Go `float64` metric values are embedded as rationals `ℚ`.  The single
  place where floating-point rounding is semantically relevant — the
  `float32` percentile-index computation in `distribution.Read` — is
  modelled exactly by `rnd32`, a round-to-nearest, ties-to-even rounding
  to a 24-bit significand, which is the IEEE-754 binary32 rounding of
  every value arising in that computation (all of them lie well inside
  the normal range of binary32).
* The pseudo-random source `rand.Int63n(count)` is modelled by an
  explicit draw argument reduced modulo `count`, so every theorem
  quantifies over all possible draw sequences.
* Go `int64` wrap-around (relevant to the dialer backoff computation) is
  modelled by `wrap64`.
* Executable definitions avoid the `@[irreducible]` rational field
  operations, using `Rat.divInt`, `Rat.num`, `Rat.den` and integer
  arithmetic instead; bridge lemmas relate them to the ordinary `ℚ`
  operations.
-/

set_option maxRecDepth 100000

/-! ## Exact binary32 rounding -/

/-- Floor of the base-2 logarithm, driven by an explicit fuel argument so
that the kernel can evaluate it; `natLog2` instantiates the fuel with the
argument itself, which always suffices. -/
def log2fuel : ℕ → ℕ → ℕ
  | 0, _ => 0
  | fuel + 1, n => if n ≤ 1 then 0 else log2fuel fuel (n / 2) + 1

/-- `natLog2 n` is `⌊log₂ n⌋` for `n ≥ 1`. -/
def natLog2 (n : ℕ) : ℕ := log2fuel n n

/-- `pow2leB k a b` decides `2^k ≤ a / b` by integer arithmetic. -/
def pow2leB (k : ℤ) (a b : ℕ) : Bool :=
  if 0 ≤ k then Nat.ble (2 ^ k.toNat * b) a else Nat.ble b (2 ^ (-k).toNat * a)

/-- The binary exponent of the rational `a / b` (for `a b ≥ 1`): the
unique `e` with `2^e ≤ a/b < 2^(e+1)`. -/
def fl32exp (a b : ℕ) : ℤ :=
  let e0 : ℤ := (natLog2 a : ℤ) - (natLog2 b : ℤ) - 1
  if pow2leB (e0 + 1) a b then e0 + 1 else e0

/-- Round the fraction `n2 / d2` to the nearest integer, ties to even,
by integer division. -/
def roundNearEven (n2 d2 : ℕ) : ℕ :=
  if 2 * (n2 % d2) < d2 then n2 / d2
  else if d2 < 2 * (n2 % d2) then n2 / d2 + 1
  else if (n2 / d2) % 2 = 0 then n2 / d2 else n2 / d2 + 1

/-- Round a positive rational to the nearest number with a 24-bit binary
significand, ties to even: exactly the IEEE-754 binary32 (`float32`)
rounding for arguments inside the binary32 normal finite range.  The
significand is `roundNearEven` of `q` scaled by `2^(23-e)`, where `e` is
the binary exponent of `q`; all the arithmetic is on `ℕ`/`ℤ` so the
kernel can evaluate it. -/
def rnd32 (q : ℚ) : ℚ :=
  if q ≤ 0 then 0
  else
    let a := q.num.toNat
    let b := q.den
    let s := 23 - fl32exp a b
    if 0 ≤ s then Rat.divInt (roundNearEven (a * 2 ^ s.toNat) b : ℤ) ((2 : ℤ) ^ s.toNat)
    else Rat.divInt ((roundNearEven a (b * 2 ^ (-s).toNat) * 2 ^ (-s).toNat : ℕ) : ℤ) 1

/-- Truncation toward zero, the semantics of Go's float-to-int
conversion. -/
def truncToInt (q : ℚ) : ℤ := if q < 0 then q.ceil else q.floor

/-- Exact division by 100 in kernel-computable form. -/
def qdiv100 (q : ℚ) : ℚ := Rat.divInt q.num (q.den * 100)

/-- Exact multiplication by a natural in kernel-computable form. -/
def qmulN (q : ℚ) (p : ℕ) : ℚ := Rat.divInt (q.num * p) q.den

/-- The value of the Go expression `float32(n) / 100 * float32(p)` from
`distribution.Read`: each operation is a binary32 operation, i.e. the
exact result rounded by `rnd32`.  The conversion `float32(p)` is exact
for the `p ∈ {50, 90, 99}` used by `Read` (they are far below `2^24`),
so multiplying by `p` exactly and then rounding is the binary32
multiplication by `float32(p)`. -/
def float32index (n p : ℕ) : ℚ :=
  rnd32 (qmulN (rnd32 (qdiv100 (rnd32 (Rat.divInt n 1)))) p)

/-- The percentile index `int(float32(n) / 100 * float32(p))` computed by
`distribution.Read`. -/
def pIndex (n p : ℕ) : ℤ := truncToInt (float32index n p)

example : natLog2 1 = 0 := by decide
example : natLog2 10737418 = 23 := by decide
example : rnd32 50 = 50 ∧ rnd32 90 = 90 ∧ rnd32 99 = 99 := by decide
example : pIndex 10 50 = 5 := by decide
example : pIndex 106 50 = 52 := by decide
example : pIndex 1 99 = 0 := by decide

/-! ## The reservoir distribution (`meter/meter_distribution.go`) -/

/-- `math.MaxFloat64`, the initial value of the `min` field in
`newDistribution`. -/
def maxFloat64 : ℚ := Rat.divInt (((1 <<< 1024) - (1 <<< 971) : ℕ) : ℤ) 1

/-- The reservoir state (`type distribution struct`).  The `rand` field
is not part of the state: each call to `Record` takes the next value of
the random source as an explicit argument instead. -/
structure distribution where
  items : List ℚ
  count : ℕ
  min : ℚ
  max : ℚ

/-- `newDistribution`: a zeroed buffer of `size` slots, `min` seeded with
`math.MaxFloat64`, and the zero values `0` for `count` and `max`. -/
def newDistribution (size : ℕ) : distribution :=
  { items := List.replicate size 0
    count := 0
    min := maxFloat64
    max := 0 }

/-- `distribution.Record`.  `draw` stands for the value returned by the
random source; `rand.Int63n(count)` is its reduction modulo the new
count, which ranges over exactly `[0, count)` as `draw` ranges over `ℕ`. -/
def distribution.Record (dist : distribution) (draw : ℕ) (value : ℚ) : distribution :=
  let count := dist.count + 1
  let items :=
    if count ≤ dist.items.length then dist.items.set (count - 1) value
    else if draw % count < dist.items.length then dist.items.set (draw % count) value
    else dist.items
  { items := items
    count := count
    min := if value < dist.min then value else dist.min
    max := if dist.max < value then value else dist.max }

/-- A whole sequence of `Record` calls; each list entry pairs the value
recorded with the draw of the random source consumed by that call. -/
def distribution.RecordAll (dist : distribution) (vds : List (ℚ × ℕ)) : distribution :=
  vds.foldl (fun d vd => d.Record vd.2 vd.1) dist

/-- Insertion into a sorted list, the building block of `sortAsc`. -/
def insertSorted (x : ℚ) : List ℚ → List ℚ
  | [] => [x]
  | y :: ys => if x ≤ y then x :: y :: ys else y :: insertSorted x ys

/-- Ascending sort, modelling `sort.Sort(float64Array(items[:n]))`. -/
def sortAsc (l : List ℚ) : List ℚ := l.foldr insertSorted []

/-- The retained sample size `n` computed by `distribution.Read`:
`n := dist.count; if dist.count > len(items) { n = len(items) }`. -/
def distribution.sampleSize (dist : distribution) : ℕ :=
  Nat.min dist.count dist.items.length

/-- `distribution.Read`: the empty map for an untouched reservoir,
otherwise the six statistics.  The buffer copy is sorted only on its
first `n` slots, and the percentile lookup indexes into that copy at
`int(float32(n) / 100 * float32(p))`. -/
def distribution.Read (dist : distribution) : List (String × ℚ) :=
  if dist.count = 0 then []
  else
    let n := dist.sampleSize
    let items := sortAsc (dist.items.take n) ++ dist.items.drop n
    let percentile := fun (p : ℕ) => items.getD (pIndex n p).toNat 0
    [("count", Rat.divInt dist.count 1),
     ("p00", dist.min),
     ("p50", percentile 50),
     ("p90", percentile 90),
     ("p99", percentile 99),
     ("pmx", dist.max)]

/-- `Distribution.Record`: the lazily-created reservoir (`state == nil`
means no reservoir yet; the first record constructs one). -/
def DistributionRecord (state : Option distribution) (size : ℕ) (draw : ℕ) (value : ℚ) :
    Option distribution :=
  some ((state.getD (newDistribution size)).Record draw value)

/-- `Distribution.ReadMeter`: swap a fresh reservoir in; an all-time-nil
old state yields the empty map, otherwise the old reservoir is drained
with `Read`.  Returns the snapshot and the new state. -/
def ReadMeter (state : Option distribution) (size : ℕ) :
    List (String × ℚ) × Option distribution :=
  (match state with
   | none => []
   | some dist => dist.Read,
   some (newDistribution size))

/-! ## The carbon reporter (`CarbonHandler`) -/

/-- Two's-complement wrap-around of 64-bit signed integer arithmetic. -/
def wrap64 (x : ℤ) : ℤ := (x + 2 ^ 63) % 2 ^ 64 - 2 ^ 63

/-- `CarbonMaxConnDelay = 1 * time.Minute`, in nanoseconds. -/
def CarbonMaxConnDelay : ℤ := 60 * 1000000000

/-- The registry: URL to live connection (`some`) or `nil` (`none`).
Connections themselves are abstracted to identifiers. -/
def setConn (conns : List (String × Option ℕ)) (url : String) (c : Option ℕ) :
    List (String × Option ℕ) :=
  if conns.any (fun e => e.1 = url) then
    conns.map (fun e => if e.1 = url then (url, c) else e)
  else conns ++ [(url, c)]

/-- Reading `carbon.conns[URL]` (a missing key reads as `nil`). -/
def lookupConn (conns : List (String × Option ℕ)) (url : String) : Option ℕ :=
  match conns.lookup url with
  | some (some c) => some c
  | _ => none

/-- The observable state of a `CarbonHandler`: the registry, the URLs
for which a background dialer goroutine has been spawned, the
connections that have been closed, and whether the control loop has been
started. -/
structure CarbonState where
  conns : List (String × Option ℕ)
  dialers : List String
  closed : List ℕ
  loopStarted : Bool

/-- The outcome of `CarbonHandler.init`: `klog.KFatal` or a running
handler. -/
inductive InitResult where
  | fatal (key msg : String)
  | ok (state : CarbonState)

namespace CarbonHandler

/-- `CarbonHandler.connect`: close the existing connection if there is
one, clear the registry entry to `nil`, and spawn a dialer for the
URL. -/
def connect (s : CarbonState) (url : String) : CarbonState :=
  { conns := setConn s.conns url none
    dialers := s.dialers ++ [url]
    closed := s.closed ++ (match lookupConn s.conns url with
      | some c => [c]
      | none => [])
    loopStarted := s.loopStarted }

/-- `CarbonHandler.init`: fatal on an empty URL list, otherwise connect
every URL and start the control loop. -/
def init (urls : List String) : InitResult :=
  if urls.length = 0 then .fatal "meter.carbon.init.error" "no URL configured"
  else
    .ok { urls.foldl connect
            { conns := [], dialers := [], closed := [], loopStarted := false } with
          loopStarted := true }

/-- The `time.Duration` value `time.Duration(attempts*2) * time.Second`
computed by `CarbonHandler.sleep`, with 64-bit wrap-around. -/
def sleepFor (attempts : ℤ) : ℤ := wrap64 (wrap64 (attempts * 2) * 1000000000)

/-- The time actually slept by `CarbonHandler.sleep`: nothing for
`attempts == 0`, otherwise `sleepFor` capped at `capDelay`
(`time.Sleep` returns immediately on a non-positive duration, hence the
`max 0`). -/
def sleepDelay (attempts capDelay : ℤ) : ℤ :=
  if attempts = 0 then 0
  else if sleepFor attempts < capDelay then max 0 (sleepFor attempts)
  else max 0 capDelay

/-- One iteration of the `range carbon.conns` loop in
`CarbonHandler.send`: skip a `nil` entry; on a write error (decided by
the `writeFails` oracle) tear the connection down via `connect`;
otherwise the snapshot was delivered to that URL. -/
def sendStep (writeFails : ℕ → Bool) (acc : CarbonState × List String)
    (e : String × Option ℕ) : CarbonState × List String :=
  match e.2 with
  | none => acc
  | some c => if writeFails c then (connect acc.1 e.1, acc.2) else (acc.1, acc.2 ++ [e.1])

/-- `CarbonHandler.send`: visit every registry entry once; returns the
final state and the list of URLs the snapshot was delivered to. -/
def send (s : CarbonState) (writeFails : ℕ → Bool) : CarbonState × List String :=
  s.conns.foldl (sendStep writeFails) (s, [])

end CarbonHandler

example : (newDistribution 3).items = [0, 0, 0] := by decide
example : ((newDistribution 3).Record 0 5).items = [5, 0, 0] := by decide
example : ((newDistribution 1).RecordAll [(3, 0), (7, 0)]).count = 2 := by decide
example : sortAsc [3, 1, 2] = [1, 2, 3] := by decide
example : (-1 : ℚ) < maxFloat64 := by decide

/-! ## Helper lemmas on lists and records -/

theorem take_set_succ {α : Type} (l : List α) (k : ℕ) (v : α) (h : k < l.length) :
    (l.set k v).take (k + 1) = l.take k ++ [v] := by
  induction l generalizing k with
  | nil => simp at h
  | cons a t ih =>
    cases k with
    | zero => simp
    | succ k =>
      show (a :: t.set k v).take (k + 2) = (a :: t.take k) ++ [v]
      rw [List.take_succ_cons, ih k (by simpa using h)]
      simp

theorem Record_count (d : distribution) (dr : ℕ) (v : ℚ) :
    (d.Record dr v).count = d.count + 1 := rfl

theorem Record_length (d : distribution) (dr : ℕ) (v : ℚ) :
    (d.Record dr v).items.length = d.items.length := by
  unfold distribution.Record
  dsimp only
  split_ifs <;> simp

theorem Record_below (d : distribution) (dr : ℕ) (v : ℚ) (h : d.count < d.items.length) :
    (d.Record dr v).items = d.items.set d.count v := by
  unfold distribution.Record
  dsimp only
  rw [if_pos (by omega)]
  simp

theorem RecordAll_count (d : distribution) (vds : List (ℚ × ℕ)) :
    (d.RecordAll vds).count = d.count + vds.length := by
  induction vds generalizing d with
  | nil => simp [distribution.RecordAll]
  | cons vd rest ih =>
    show ((d.Record vd.2 vd.1).RecordAll rest).count = _
    rw [ih, Record_count]
    simp only [List.length_cons]
    omega

theorem RecordAll_length (d : distribution) (vds : List (ℚ × ℕ)) :
    (d.RecordAll vds).items.length = d.items.length := by
  induction vds generalizing d with
  | nil => rfl
  | cons vd rest ih =>
    show ((d.Record vd.2 vd.1).RecordAll rest).items.length = _
    rw [ih, Record_length]

theorem RecordAll_below_take (vds : List (ℚ × ℕ)) (d : distribution)
    (h : d.count + vds.length ≤ d.items.length) :
    (d.RecordAll vds).items.take (d.count + vds.length) =
      d.items.take d.count ++ vds.map Prod.fst := by
  induction vds generalizing d with
  | nil => simp [distribution.RecordAll]
  | cons vd rest ih =>
    show ((d.Record vd.2 vd.1).RecordAll rest).items.take _ = _
    have hlt : d.count < d.items.length := by
      simp only [List.length_cons] at h; omega
    have h' : (d.Record vd.2 vd.1).count + rest.length ≤
        (d.Record vd.2 vd.1).items.length := by
      rw [Record_count, Record_length]
      simp only [List.length_cons] at h
      omega
    have := ih (d.Record vd.2 vd.1) h'
    rw [Record_count] at this
    have harith : d.count + (vd :: rest).length = d.count + 1 + rest.length := by
      simp only [List.length_cons]; omega
    rw [harith, this, Record_below d vd.2 vd.1 hlt, take_set_succ d.items d.count vd.1 hlt]
    simp

theorem range_filter_lt_length (c n : ℕ) (h : c ≤ n) :
    ((List.range n).filter (fun i => i < c)).length = c := by
  induction n, h using Nat.le_induction with
  | base =>
    rw [List.filter_eq_self.mpr, List.length_range]
    intro a ha
    simpa using List.mem_range.mp ha
  | succ n hn ih =>
    rw [List.range_succ, List.filter_append]
    simp only [List.filter_cons, List.filter_nil]
    rw [if_neg (by simpa using hn)]
    simpa using ih

/-! ## Claim C1 -/

/-- Claim C1 (code bug): after recording the single value `-1`, the
`ReadMeter` snapshot maps `pmx` to `0` — the zero-initialised `max`
field, a value never offered — while the true maximum of the offered
values is `-1` (which the snapshot correctly reports as `p00`).  The
reservoir only updates `max` when a value exceeds it, and `max` starts
at `0`, not at the first value, so every all-negative sequence reports
`pmx = 0`. -/
theorem c1_pmx_ignores_negative_max :
    (ReadMeter (DistributionRecord none 1000 0 (-1)) 1000).1.lookup "pmx" = some 0 ∧
    (ReadMeter (DistributionRecord none 1000 0 (-1)) 1000).1.lookup "p00" = some (-1) ∧
    ((0 : ℚ) ≠ -1) := by decide

/-! ## Claim C3 -/

/-- Claim C3 (counterexample): for `N = 0 < capacity = 5` the flush does
not report `count == 0`; it is the empty mapping, with no `"count"` key
at all. -/
theorem c3_flush_empty_at_zero_records :
    ((newDistribution 5).RecordAll []).Read.lookup "count" = none ∧
    ((newDistribution 5).RecordAll []).Read = [] := by decide

/-- Claim C3 (amended): for every `1 ≤ N < capacity`, after `N` `Record`
calls (any values, any random draws) the flush reports `count == N`, and
the first `N` buffer slots are exactly the `N` values offered, in
arrival order. -/
theorem c3_retention_below_capacity (size : ℕ) (vds : List (ℚ × ℕ))
    (hlt : vds.length < size) (hpos : 1 ≤ vds.length) :
    ((newDistribution size).RecordAll vds).count = vds.length ∧
    ((newDistribution size).RecordAll vds).items.take vds.length = vds.map Prod.fst ∧
    ((newDistribution size).RecordAll vds).Read.lookup "count" =
      some (Rat.divInt vds.length 1) := by
  have hc : ((newDistribution size).RecordAll vds).count = vds.length := by
    rw [RecordAll_count]; simp [newDistribution]
  have ht := RecordAll_below_take vds (newDistribution size)
    (by simp [newDistribution]; omega)
  simp only [newDistribution, List.take_zero, List.nil_append, Nat.zero_add] at ht
  refine ⟨hc, ht, ?_⟩
  unfold distribution.Read
  rw [if_neg (by omega)]
  simp [hc]

/-- Witness for `c3_retention_below_capacity` at `size = 4`,
`vds = [(5, 0), (7, 1)]`. -/
theorem c3_retention_below_capacity_witness :
    (([((5 : ℚ), (0 : ℕ)), (7, 1)] : List (ℚ × ℕ)).length < 4 ∧
      1 ≤ ([((5 : ℚ), (0 : ℕ)), (7, 1)] : List (ℚ × ℕ)).length) ∧
    ((newDistribution 4).RecordAll [((5 : ℚ), (0 : ℕ)), (7, 1)]).count = 2 ∧
    ((newDistribution 4).RecordAll [((5 : ℚ), (0 : ℕ)), (7, 1)]).items.take 2 = [5, 7] := by
  have h := c3_retention_below_capacity 4 [((5 : ℚ), (0 : ℕ)), (7, 1)]
    (by decide) (by decide)
  exact ⟨⟨by decide, by decide⟩, h.1, h.2.1⟩

/-! ## Claim C4 -/

/-- Claim C4: once at least `capacity` values have been recorded into one
reservoir generation, the retained sample size used by `Read` is exactly
`capacity` no matter how many values were offered, and the buffer length
stays `capacity` after every `Record` prefix. -/
theorem c4_bounded_memory (size : ℕ) (vds : List (ℚ × ℕ)) (h : size ≤ vds.length) :
    ((newDistribution size).RecordAll vds).sampleSize = size ∧
    (∀ l : List (ℚ × ℕ), ((newDistribution size).RecordAll l).items.length = size) := by
  constructor
  · unfold distribution.sampleSize
    rw [RecordAll_count, RecordAll_length]
    simp [newDistribution]
    omega
  · intro l
    rw [RecordAll_length]
    simp [newDistribution]

/-- Witness for `c4_bounded_memory`: capacity 2, five records. -/
theorem c4_bounded_memory_witness :
    2 ≤ ([((1 : ℚ), (0 : ℕ)), (2, 1), (3, 2), (4, 0), (5, 1)] : List (ℚ × ℕ)).length ∧
    ((newDistribution 2).RecordAll
      [((1 : ℚ), (0 : ℕ)), (2, 1), (3, 2), (4, 0), (5, 1)]).sampleSize = 2 := by
  have h := c4_bounded_memory 2 [((1 : ℚ), (0 : ℕ)), (2, 1), (3, 2), (4, 0), (5, 1)]
    (by decide)
  exact ⟨by decide, h.1⟩

/-! ## Claim C5 -/

/-- Claim C5: a `Record` call arriving when the generation already holds
`count ≥ capacity` values (the new item is the `i`-th with
`i = count + 1 > capacity`) draws an index `j` in `[0, i)` from the
random source, stores the new value at buffer slot `j` exactly when
`j < capacity` (leaving the buffer untouched otherwise), and of the `i`
equally likely draws exactly `capacity` of them store the value — the
classic reservoir-sampling replacement probability `capacity / i`. -/
theorem c5_reservoir_replacement (d : distribution) (value : ℚ) (j : ℕ)
    (hfull : d.items.length ≤ d.count) (hj : j < d.count + 1) :
    (d.Record j value).count = d.count + 1 ∧
    (d.Record j value).items =
      (if j < d.items.length then d.items.set j value else d.items) ∧
    ((List.range (d.count + 1)).filter (fun i => i < d.items.length)).length =
      d.items.length := by
  refine ⟨rfl, ?_, range_filter_lt_length _ _ (by omega)⟩
  unfold distribution.Record
  dsimp only
  rw [if_neg (by omega), Nat.mod_eq_of_lt hj]

/-- Witness for `c5_reservoir_replacement`: a full generation with
capacity 2 and count 3; the draw `j = 1 < 2` stores at slot 1, the draw
`j = 2 ≥ 2` discards. -/
theorem c5_reservoir_replacement_witness :
    (([(5 : ℚ), 6] : List ℚ).length ≤ 3 ∧ (1 : ℕ) < 3 + 1 ∧ (2 : ℕ) < 3 + 1) ∧
    (({ items := [5, 6], count := 3, min := 5, max := 6 } : distribution).Record 1 9).items
      = [5, 9] ∧
    (({ items := [5, 6], count := 3, min := 5, max := 6 } : distribution).Record 2 9).items
      = [5, 6] := by
  have h1 := c5_reservoir_replacement
    ({ items := [5, 6], count := 3, min := 5, max := 6 } : distribution) 9 1
    (by decide) (by decide)
  have h2 := c5_reservoir_replacement
    ({ items := [5, 6], count := 3, min := 5, max := 6 } : distribution) 9 2
    (by decide) (by decide)
  refine ⟨⟨by decide, by decide, by decide⟩, h1.2.1.trans (by decide), h2.2.1.trans (by decide)⟩

/-! ## Claim C6 -/

/-- Claim C6: `ReadMeter` returns the empty mapping when no `Record`
ever happened (`state == nil`), and a second `ReadMeter` with no records
in between drains the freshly-swapped-in reservoir, whose count is `0`,
so it also returns the empty mapping; neither case fails. -/
theorem c6_read_reset_empty (st : Option distribution) (size size2 : ℕ) :
    (ReadMeter none size).1 = [] ∧
    (ReadMeter (ReadMeter st size).2 size2).1 = [] := by
  constructor
  · rfl
  · simp [ReadMeter, distribution.Read, newDistribution]

/-! ## Claim C7 -/

theorem wrap64_eq_self {x : ℤ} (h1 : -(2 ^ 63) ≤ x) (h2 : x < 2 ^ 63) :
    wrap64 x = x := by
  unfold wrap64
  omega

/-- Claim C7 (counterexample): for retry count `attempts = 5·10⁹` and a
10-second cap, the delay the claim demands is `min(10¹⁹ ns, 10¹⁰ ns) =
10 s, but the multiplication `time.Duration(attempts*2) * time.Second`
overflows int64 to a negative duration, so `time.Sleep` returns at once
and the actual delay is `0`. -/
theorem c7_sleep_overflow_counterexample :
    CarbonHandler.sleepDelay (5 * 10 ^ 9) (10 ^ 10) = 0 ∧
    min ((5 * 10 ^ 9 : ℤ) * 2 * 10 ^ 9) (10 ^ 10) = 10 ^ 10 ∧
    (0 : ℤ) ≠ 10 ^ 10 := by
  refine ⟨?_, by norm_num [min_def], by norm_num⟩
  unfold CarbonHandler.sleepDelay CarbonHandler.sleepFor wrap64
  norm_num

/-- Claim C7 (amended): whenever `attempts * 2` seconds is representable
in an `int64` of nanoseconds (in particular for every retry count that
can occur in practice), the pre-attempt delay of the dialer is
`min(attempts * 2 s, capDelay)`, and it is zero for `attempts = 0`; past
that bound the product wraps around and a non-positive wrapped duration
sleeps not at all. -/
theorem c7_backoff_formula (attempts capDelay : ℤ) (h0 : 0 ≤ attempts)
    (h1 : attempts * 2 * 1000000000 < 2 ^ 63) (hc : 0 ≤ capDelay) :
    CarbonHandler.sleepDelay attempts capDelay =
      min (attempts * 2 * 1000000000) capDelay := by
  unfold CarbonHandler.sleepDelay CarbonHandler.sleepFor
  have ha : wrap64 (attempts * 2) = attempts * 2 :=
    wrap64_eq_self (by omega) (by omega)
  rw [ha]
  have hb : wrap64 (attempts * 2 * 1000000000) = attempts * 2 * 1000000000 :=
    wrap64_eq_self (by omega) (by omega)
  rw [hb]
  rcases eq_or_ne attempts 0 with h | h
  · subst h
    simp [min_def, hc]
  · rw [if_neg h]
    rcases lt_or_ge (attempts * 2 * 1000000000) capDelay with hlt | hge
    · rw [if_pos hlt, min_eq_left (le_of_lt hlt), max_eq_right (by omega)]
    · rw [if_neg (not_lt.mpr hge), min_eq_right hge, max_eq_right hc]

/-- Witness for `c7_backoff_formula`: the concrete delays demanded by
the spec — attempts 1 and 3 with a 10 s cap give 2 s and 6 s, attempt 10
is capped at exactly 10 s. -/
theorem c7_backoff_formula_witness :
    CarbonHandler.sleepDelay 1 (10 * 10 ^ 9) = 2 * 10 ^ 9 ∧
    CarbonHandler.sleepDelay 3 (10 * 10 ^ 9) = 6 * 10 ^ 9 ∧
    CarbonHandler.sleepDelay 10 (10 * 10 ^ 9) = 10 * 10 ^ 9 := by
  have h1 := c7_backoff_formula 1 (10 * 10 ^ 9) (by norm_num) (by norm_num) (by norm_num)
  have h3 := c7_backoff_formula 3 (10 * 10 ^ 9) (by norm_num) (by norm_num) (by norm_num)
  have h10 := c7_backoff_formula 10 (10 * 10 ^ 9) (by norm_num) (by norm_num) (by norm_num)
  refine ⟨h1.trans (by norm_num [min_def]), h3.trans (by norm_num [min_def]),
    h10.trans (by norm_num [min_def])⟩

/-! ## Claim C8 -/

theorem lookup_setConn_self (conns : List (String × Option ℕ)) (url : String)
    (c : Option ℕ) : (setConn conns url c).lookup url = some c := by
  unfold setConn
  by_cases hany : conns.any (fun e => e.1 = url) = true
  · rw [if_pos hany]
    revert hany
    induction conns with
    | nil => intro hany; simp at hany
    | cons e t ih =>
      obtain ⟨k, v⟩ := e
      intro hany
      by_cases he : k = url
      · subst he
        simp [List.lookup_cons]
      · have hb : (url == k) = false := beq_false_of_ne (Ne.symm he)
        simp only [List.any_cons, Bool.or_eq_true, decide_eq_true_eq] at hany
        have htail : t.any (fun e => e.1 = url) = true := by
          rcases hany with hh | hh
          · exact absurd hh he
          · exact hh
        simp only [List.map_cons, List.lookup_cons, if_neg he, hb]
        exact ih htail
  · rw [if_neg hany]
    revert hany
    induction conns with
    | nil => intro _; simp
    | cons e t ih =>
      obtain ⟨k, v⟩ := e
      intro hany
      simp only [List.any_cons, Bool.or_eq_true, decide_eq_true_eq, not_or] at hany
      have hb : (url == k) = false := beq_false_of_ne (fun hh => hany.1 hh.symm)
      simp only [List.cons_append, List.lookup_cons, hb]
      exact ih (by simpa using hany.2)

theorem lookup_setConn_other (conns : List (String × Option ℕ)) (url url2 : String)
    (c : Option ℕ) (h : url2 ≠ url) :
    (setConn conns url c).lookup url2 = conns.lookup url2 := by
  unfold setConn
  by_cases hany : conns.any (fun e => e.1 = url) = true
  · rw [if_pos hany]
    clear hany
    induction conns with
    | nil => simp
    | cons e t ih =>
      obtain ⟨k, v⟩ := e
      by_cases he : k = url
      · subst he
        have hb : (url2 == k) = false := beq_false_of_ne h
        simp [List.lookup_cons, hb, ih]
      · simp only [List.map_cons, List.lookup_cons, if_neg he]
        cases hbe : (url2 == k) with
        | true => rfl
        | false => exact ih
  · rw [if_neg hany]
    clear hany
    induction conns with
    | nil => simpa using h
    | cons e t ih =>
      obtain ⟨k, v⟩ := e
      simp only [List.cons_append, List.lookup_cons]
      cases hbe : (url2 == k) with
      | true => rfl
      | false => exact ih

theorem foldl_connect_dialers (urls : List String) (s : CarbonState) :
    (urls.foldl CarbonHandler.connect s).dialers = s.dialers ++ urls := by
  induction urls generalizing s with
  | nil => simp
  | cons u us ih =>
    show (us.foldl CarbonHandler.connect (CarbonHandler.connect s u)).dialers = _
    rw [ih]
    simp [CarbonHandler.connect]

theorem foldl_connect_lookup (urls : List String) (s : CarbonState) (u : String)
    (h : u ∈ urls ∨ s.conns.lookup u = some none) :
    (urls.foldl CarbonHandler.connect s).conns.lookup u = some none := by
  induction urls generalizing s with
  | nil =>
    rcases h with h | h
    · simp at h
    · simpa using h
  | cons u2 us ih =>
    show (us.foldl CarbonHandler.connect (CarbonHandler.connect s u2)).conns.lookup u
      = some none
    apply ih
    rcases h with h | h
    · rcases List.mem_cons.mp h with h | h
      · subst h
        exact Or.inr (lookup_setConn_self ..)
      · exact Or.inl h
    · by_cases hu : u = u2
      · subst hu
        exact Or.inr (lookup_setConn_self ..)
      · exact Or.inr (by rw [show (CarbonHandler.connect s u2).conns
          = setConn s.conns u2 none from rfl, lookup_setConn_other _ _ _ _ hu]; exact h)

/-- Claim C8: `CarbonHandler.init` terminates the process fatally
(`klog.KFatal`) exactly when the configured URL list is empty; with at
least one destination it instead starts the control loop, spawns one
dialer per destination, and leaves every destination registered with no
connection yet. -/
theorem c8_init_fatal_iff_no_urls (urls : List String) :
    ((∃ k m, CarbonHandler.init urls = .fatal k m) ↔ urls = []) ∧
    (urls ≠ [] → ∃ s, CarbonHandler.init urls = .ok s ∧ s.dialers = urls ∧
      s.loopStarted = true ∧ ∀ u ∈ urls, s.conns.lookup u = some none) := by
  by_cases hlen : urls.length = 0
  · have hnil : urls = [] := List.length_eq_zero.mp hlen
    subst hnil
    constructor
    · simp only [iff_true]
      exact ⟨"meter.carbon.init.error", "no URL configured", rfl⟩
    · intro h; exact absurd rfl h
  · have hne : urls ≠ [] := by
      intro h; exact hlen (by simp [h])
    unfold CarbonHandler.init
    rw [if_neg hlen]
    constructor
    · simp [hne]
    · intro _
      refine ⟨_, rfl, ?_, rfl, ?_⟩
      · rw [foldl_connect_dialers]
        simp
      · intro u hu
        exact foldl_connect_lookup urls _ u (Or.inl hu)

/-- Witness for `c8_init_fatal_iff_no_urls`: the empty configuration is
fatal, and with destinations `["a", "b"]` the handler starts with a
dialer per URL and both registry entries `nil`. -/
theorem c8_init_fatal_iff_no_urls_witness :
    (∃ k m, CarbonHandler.init [] = .fatal k m) ∧
    (∃ s, CarbonHandler.init ["a", "b"] = .ok s ∧ s.dialers = ["a", "b"] ∧
      s.loopStarted = true ∧ ∀ u ∈ ["a", "b"], s.conns.lookup u = some none) := by
  exact ⟨(c8_init_fatal_iff_no_urls []).1.mpr rfl,
    (c8_init_fatal_iff_no_urls ["a", "b"]).2 (by decide)⟩

/-! ## Claim C9 -/

/-- A registry entry holding a live connection whose write succeeds. -/
def liveOk (writeFails : ℕ → Bool) (e : String × Option ℕ) : Bool :=
  match e.2 with
  | some c => !writeFails c
  | none => false

/-- A registry entry holding a live connection whose write fails. -/
def liveFail (writeFails : ℕ → Bool) (e : String × Option ℕ) : Bool :=
  match e.2 with
  | some c => writeFails c
  | none => false

/-- The connection of a failing entry, if any. -/
def failedConn (writeFails : ℕ → Bool) (e : String × Option ℕ) : Option ℕ :=
  match e.2 with
  | some c => if writeFails c then some c else none
  | none => none

theorem sendStep_none (writeFails : ℕ → Bool) (acc : CarbonState × List String)
    (u : String) : CarbonHandler.sendStep writeFails acc (u, none) = acc := rfl

theorem sendStep_fail (writeFails : ℕ → Bool) (acc : CarbonState × List String)
    (u : String) (c : ℕ) (hf : writeFails c = true) :
    CarbonHandler.sendStep writeFails acc (u, some c) =
      (CarbonHandler.connect acc.1 u, acc.2) := by
  simp [CarbonHandler.sendStep, hf]

theorem sendStep_ok (writeFails : ℕ → Bool) (acc : CarbonState × List String)
    (u : String) (c : ℕ) (hf : writeFails c = false) :
    CarbonHandler.sendStep writeFails acc (u, some c) = (acc.1, acc.2 ++ [u]) := by
  simp [CarbonHandler.sendStep, hf]

theorem send_foldl_delivered (writeFails : ℕ → Bool) (rest : List (String × Option ℕ)) :
    ∀ acc : CarbonState × List String,
      (rest.foldl (CarbonHandler.sendStep writeFails) acc).2 =
        acc.2 ++ (rest.filter (liveOk writeFails)).map Prod.fst := by
  induction rest with
  | nil => intro acc; simp
  | cons e t ih =>
    intro acc
    obtain ⟨u, v⟩ := e
    show (t.foldl _ (CarbonHandler.sendStep writeFails acc (u, v))).2 = _
    cases v with
    | none =>
      rw [sendStep_none, ih]
      simp [liveOk, List.filter_cons]
    | some c =>
      cases hf : writeFails c with
      | true =>
        rw [sendStep_fail _ _ _ _ hf, ih]
        simp [liveOk, List.filter_cons, hf]
      | false =>
        rw [sendStep_ok _ _ _ _ hf, ih]
        simp [liveOk, List.filter_cons, hf]

theorem send_foldl_dialers (writeFails : ℕ → Bool) (rest : List (String × Option ℕ)) :
    ∀ acc : CarbonState × List String,
      (rest.foldl (CarbonHandler.sendStep writeFails) acc).1.dialers =
        acc.1.dialers ++ (rest.filter (liveFail writeFails)).map Prod.fst := by
  induction rest with
  | nil => intro acc; simp
  | cons e t ih =>
    intro acc
    obtain ⟨u, v⟩ := e
    show (t.foldl _ (CarbonHandler.sendStep writeFails acc (u, v))).1.dialers = _
    cases v with
    | none =>
      rw [sendStep_none, ih]
      simp [liveFail, List.filter_cons]
    | some c =>
      cases hf : writeFails c with
      | true =>
        rw [sendStep_fail _ _ _ _ hf, ih]
        simp [liveFail, List.filter_cons, hf, CarbonHandler.connect]
      | false =>
        rw [sendStep_ok _ _ _ _ hf, ih]
        simp [liveFail, List.filter_cons, hf]

theorem send_foldl_conns_other (writeFails : ℕ → Bool) (rest : List (String × Option ℕ)) :
    ∀ (acc : CarbonState × List String) (url : String), url ∉ rest.map Prod.fst →
      (rest.foldl (CarbonHandler.sendStep writeFails) acc).1.conns.lookup url =
        acc.1.conns.lookup url := by
  induction rest with
  | nil => intro acc url _; rfl
  | cons e t ih =>
    intro acc url hmem
    obtain ⟨u, v⟩ := e
    simp only [List.map_cons, List.mem_cons, not_or] at hmem
    show (t.foldl _ (CarbonHandler.sendStep writeFails acc (u, v))).1.conns.lookup url = _
    cases v with
    | none => rw [sendStep_none, ih _ _ hmem.2]
    | some c =>
      cases hf : writeFails c with
      | true =>
        rw [sendStep_fail _ _ _ _ hf, ih _ _ hmem.2]
        exact lookup_setConn_other _ _ _ _ hmem.1
      | false => rw [sendStep_ok _ _ _ _ hf, ih _ _ hmem.2]

theorem send_foldl_conns (writeFails : ℕ → Bool) (rest : List (String × Option ℕ)) :
    ∀ (acc : CarbonState × List String) (url : String) (v : Option ℕ),
      (rest.map Prod.fst).Nodup → (url, v) ∈ rest →
      acc.1.conns.lookup url = some v →
      (rest.foldl (CarbonHandler.sendStep writeFails) acc).1.conns.lookup url =
        some (match v with
          | some c => if writeFails c then none else some c
          | none => none) := by
  induction rest with
  | nil => intro _ _ _ _ h; simp at h
  | cons e t ih =>
    intro acc url v hnd hmem hacc
    obtain ⟨u, w⟩ := e
    simp only [List.map_cons, List.nodup_cons] at hnd
    show (t.foldl _ (CarbonHandler.sendStep writeFails acc (u, w))).1.conns.lookup url = _
    rcases List.mem_cons.mp hmem with heq | hmem2
    · obtain ⟨hu, hv⟩ := Prod.mk.injEq .. ▸ heq
      subst hu hv
      have hnot : url ∉ t.map Prod.fst := by simpa using hnd.1
      cases v with
      | none => rw [sendStep_none, send_foldl_conns_other _ _ _ _ hnot, hacc]
      | some c =>
        cases hf : writeFails c with
        | true =>
          rw [sendStep_fail _ _ _ _ hf, send_foldl_conns_other _ _ _ _ hnot]
          simp only [CarbonHandler.connect, hf]
          rw [lookup_setConn_self]
          simp [hf]
        | false =>
          rw [sendStep_ok _ _ _ _ hf, send_foldl_conns_other _ _ _ _ hnot, hacc]
          simp [hf]
    · have hne : u ≠ url := by
        intro hh
        subst hh
        exact hnd.1 (by simpa using List.mem_map_of_mem Prod.fst hmem2)
      have hacc2 : (CarbonHandler.sendStep writeFails acc (u, w)).1.conns.lookup url
          = some v := by
        cases w with
        | none => rw [sendStep_none]; exact hacc
        | some c =>
          cases hf : writeFails c with
          | true =>
            rw [sendStep_fail _ _ _ _ hf]
            show (CarbonHandler.connect acc.1 u).conns.lookup url = some v
            rw [show (CarbonHandler.connect acc.1 u).conns = setConn acc.1.conns u none
              from rfl]
            rw [lookup_setConn_other _ _ _ _ (Ne.symm hne)]
            exact hacc
          | false => rw [sendStep_ok _ _ _ _ hf]; exact hacc
      exact ih _ _ _ hnd.2 hmem2 hacc2

theorem lookup_of_mem_nodup (l : List (String × Option ℕ)) (url : String) (v : Option ℕ)
    (hnd : (l.map Prod.fst).Nodup) (hmem : (url, v) ∈ l) : l.lookup url = some v := by
  induction l with
  | nil => simp at hmem
  | cons e t ih =>
    obtain ⟨k, w⟩ := e
    simp only [List.map_cons, List.nodup_cons] at hnd
    rcases List.mem_cons.mp hmem with heq | hmem2
    · obtain ⟨hu, hv⟩ := Prod.mk.injEq .. ▸ heq
      subst hu hv
      simp [List.lookup_cons]
    · have hne : url ≠ k := by
        intro hh
        subst hh
        exact hnd.1 (by simpa using List.mem_map_of_mem Prod.fst hmem2)
      simp only [List.lookup_cons, beq_false_of_ne hne]
      exact ih hnd.2 hmem2

theorem mem_nodup_unique (l : List (String × Option ℕ)) (url : String) (v w : Option ℕ)
    (hnd : (l.map Prod.fst).Nodup) (h1 : (url, v) ∈ l) (h2 : (url, w) ∈ l) : v = w := by
  have hv := lookup_of_mem_nodup l url v hnd h1
  have hw := lookup_of_mem_nodup l url w hnd h2
  rw [hv] at hw
  exact Option.some.inj hw

theorem send_foldl_closed (writeFails : ℕ → Bool) (rest : List (String × Option ℕ)) :
    ∀ acc : CarbonState × List String, (rest.map Prod.fst).Nodup →
      (∀ e ∈ rest, acc.1.conns.lookup e.1 = some e.2) →
      (rest.foldl (CarbonHandler.sendStep writeFails) acc).1.closed =
        acc.1.closed ++ rest.filterMap (failedConn writeFails) := by
  induction rest with
  | nil => intro acc _ _; simp
  | cons e t ih =>
    intro acc hnd hinv
    obtain ⟨u, w⟩ := e
    simp only [List.map_cons, List.nodup_cons] at hnd
    have hhead := hinv (u, w) (List.mem_cons_self _ _)
    show (t.foldl _ (CarbonHandler.sendStep writeFails acc (u, w))).1.closed = _
    cases w with
    | none =>
      rw [sendStep_none, ih _ hnd.2 (fun e he => hinv e (List.mem_cons_of_mem _ he))]
      simp [failedConn]
    | some c =>
      cases hf : writeFails c with
      | false =>
        rw [sendStep_ok _ _ _ _ hf,
          ih (acc.1, acc.2 ++ [u]) hnd.2 (fun e he => hinv e (List.mem_cons_of_mem _ he))]
        simp [failedConn, hf]
      | true =>
        rw [sendStep_fail _ _ _ _ hf]
        have hinv2 : ∀ e ∈ t, (CarbonHandler.connect acc.1 u).conns.lookup e.1 = some e.2 := by
          intro e he
          have hne : e.1 ≠ u := by
            intro hh
            exact hnd.1 (hh ▸ (by simpa using List.mem_map_of_mem Prod.fst he))
          rw [show (CarbonHandler.connect acc.1 u).conns = setConn acc.1.conns u none
            from rfl, lookup_setConn_other _ _ _ _ hne]
          exact hinv e (List.mem_cons_of_mem _ he)
        rw [ih (CarbonHandler.connect acc.1 u, acc.2) hnd.2 hinv2]
        have hclosed : (CarbonHandler.connect acc.1 u).closed = acc.1.closed ++ [c] := by
          simp only [CarbonHandler.connect, lookupConn, hhead]
        rw [hclosed]
        simp [failedConn, hf]

/-- Claim C9: when the control loop sends a snapshot over a registry with
distinct URLs, the delivered URLs are exactly the destinations holding a
live connection whose write succeeds; each failing destination has its
connection closed, its registry entry cleared to `nil` and a fresh dialer
spawned — and only those destinations get dialers; every other entry is
unchanged; destinations with no live connection are skipped, never
delivered to, and spawn nothing. -/
theorem c9_send_partial_failure (s : CarbonState) (writeFails : ℕ → Bool)
    (hnd : (s.conns.map Prod.fst).Nodup) :
    ((CarbonHandler.send s writeFails).2 =
        (s.conns.filter (liveOk writeFails)).map Prod.fst) ∧
    ((CarbonHandler.send s writeFails).1.dialers =
        s.dialers ++ (s.conns.filter (liveFail writeFails)).map Prod.fst) ∧
    ((CarbonHandler.send s writeFails).1.closed =
        s.closed ++ s.conns.filterMap (failedConn writeFails)) ∧
    (∀ url v, (url, v) ∈ s.conns →
        (CarbonHandler.send s writeFails).1.conns.lookup url =
          some (match v with
            | some c => if writeFails c then none else some c
            | none => none)) ∧
    (∀ url, (url, none) ∈ s.conns → url ∉ (CarbonHandler.send s writeFails).2) := by
  have hdel : (CarbonHandler.send s writeFails).2 =
      (s.conns.filter (liveOk writeFails)).map Prod.fst := by
    show (s.conns.foldl _ (s, [])).2 = _
    rw [send_foldl_delivered]
    simp
  refine ⟨hdel, ?_, ?_, ?_, ?_⟩
  · show (s.conns.foldl _ (s, [])).1.dialers = _
    rw [send_foldl_dialers]
  · show (s.conns.foldl _ (s, [])).1.closed = _
    rw [send_foldl_closed _ _ _ hnd (fun e he => lookup_of_mem_nodup _ _ _ hnd he)]
  · intro url v hmem
    exact send_foldl_conns _ _ (s, []) url v hnd hmem (lookup_of_mem_nodup _ _ _ hnd hmem)
  · intro url hmem hdel2
    rw [hdel] at hdel2
    obtain ⟨e, hef, hfst⟩ := List.mem_map.mp hdel2
    obtain ⟨hemem, hlive⟩ := List.mem_filter.mp hef
    obtain ⟨k, w⟩ := e
    cases w with
    | none => simp [liveOk] at hlive
    | some c =>
      subst hfst
      exact absurd (mem_nodup_unique _ _ _ _ hnd hmem hemem) (by simp)

/-- Witness for `c9_send_partial_failure`: registry
`a ↦ conn 1, b ↦ nil, c ↦ conn 2` where only the write on connection 1
fails: the snapshot is delivered exactly to `c`, destination `a` is torn
down (connection 1 closed, entry cleared, one new dialer) and `b` is
skipped. -/
theorem c9_send_partial_failure_witness :
    ((([("a", some 1), ("b", none), ("c", some 2)] :
        List (String × Option ℕ)).map Prod.fst).Nodup) ∧
    (CarbonHandler.send
      { conns := [("a", some 1), ("b", none), ("c", some 2)], dialers := [],
        closed := [], loopStarted := true } (fun c => c == 1)).2 = ["c"] ∧
    (CarbonHandler.send
      { conns := [("a", some 1), ("b", none), ("c", some 2)], dialers := [],
        closed := [], loopStarted := true } (fun c => c == 1)).1.dialers = ["a"] ∧
    (CarbonHandler.send
      { conns := [("a", some 1), ("b", none), ("c", some 2)], dialers := [],
        closed := [], loopStarted := true } (fun c => c == 1)).1.closed = [1] ∧
    (CarbonHandler.send
      { conns := [("a", some 1), ("b", none), ("c", some 2)], dialers := [],
        closed := [], loopStarted := true } (fun c => c == 1)).1.conns.lookup "a"
      = some none := by
  have h := c9_send_partial_failure
    { conns := [("a", some 1), ("b", none), ("c", some 2)], dialers := [],
      closed := [], loopStarted := true } (fun c => c == 1) (by decide)
  exact ⟨by decide, h.1.trans (by decide), h.2.1.trans (by decide),
    h.2.2.1.trans (by decide), (h.2.2.2.1 "a" (some 1) (by decide)).trans (by decide)⟩

/-! ## Correctness of the binary32 rounding model -/

theorem log2fuel_spec : ∀ (fuel n : ℕ), 1 ≤ n → n ≤ fuel →
    2 ^ log2fuel fuel n ≤ n ∧ n < 2 ^ (log2fuel fuel n + 1) := by
  intro fuel
  induction fuel with
  | zero => intro n h1 h2; omega
  | succ fuel ih =>
    intro n h1 h2
    by_cases hsmall : n ≤ 1
    · have : n = 1 := by omega
      subst this
      simp [log2fuel]
    · have h2' : n / 2 ≤ fuel := by omega
      have h1' : 1 ≤ n / 2 := by omega
      obtain ⟨ihl, ihr⟩ := ih (n / 2) h1' h2'
      have hstep : log2fuel (fuel + 1) n = log2fuel fuel (n / 2) + 1 := by
        show (if n ≤ 1 then 0 else log2fuel fuel (n / 2) + 1) = _
        rw [if_neg hsmall]
      rw [hstep]
      constructor
      · calc 2 ^ (log2fuel fuel (n / 2) + 1) = 2 * 2 ^ log2fuel fuel (n / 2) := by ring
        _ ≤ 2 * (n / 2) := by omega
        _ ≤ n := by omega
      · have : n / 2 + 1 ≤ 2 ^ (log2fuel fuel (n / 2) + 1) := ihr
        calc n ≤ 2 * (n / 2) + 1 := by omega
        _ < 2 * 2 ^ (log2fuel fuel (n / 2) + 1) := by omega
        _ = 2 ^ (log2fuel fuel (n / 2) + 1 + 1) := by ring

theorem natLog2_le (n : ℕ) (h : 1 ≤ n) : 2 ^ natLog2 n ≤ n :=
  (log2fuel_spec n n h le_rfl).1

theorem natLog2_lt (n : ℕ) (h : 1 ≤ n) : n < 2 ^ (natLog2 n + 1) :=
  (log2fuel_spec n n h le_rfl).2

theorem pow2leB_iff (k : ℤ) (a b : ℕ) (hb : 0 < b) :
    pow2leB k a b = true ↔ (2:ℚ) ^ k ≤ (a:ℚ) / (b:ℚ) := by
  have hbq : (0:ℚ) < (b:ℚ) := by exact_mod_cast hb
  unfold pow2leB
  split
  · next hk =>
    rw [Nat.ble_eq, le_div_iff hbq]
    have h2 : (2:ℚ) ^ k = ((2 ^ k.toNat : ℕ) : ℚ) := by
      rw [← Int.toNat_of_nonneg hk, zpow_natCast]
      push_cast
      rfl
    rw [h2, ← Nat.cast_mul]
    exact Nat.cast_le.symm
  · next hk =>
    rw [Nat.ble_eq]
    have hm : (2:ℚ) ^ k = 1 / ((2 ^ (-k).toNat : ℕ) : ℚ) := by
      conv_lhs => rw [show k = -(((-k).toNat : ℕ) : ℤ) from by omega]
      rw [zpow_neg, zpow_natCast, one_div]
      norm_cast
    rw [hm, div_le_div_iff (by positivity) hbq, one_mul, mul_comm]
    rw [← Nat.cast_mul]
    exact Nat.cast_le.symm

theorem fl32exp_def (a b : ℕ) : fl32exp a b =
    if pow2leB ((natLog2 a : ℤ) - natLog2 b - 1 + 1) a b = true
    then (natLog2 a : ℤ) - natLog2 b - 1 + 1
    else (natLog2 a : ℤ) - natLog2 b - 1 := rfl

theorem fl32exp_spec (a b : ℕ) (ha : 1 ≤ a) (hb : 1 ≤ b) :
    (2:ℚ) ^ fl32exp a b ≤ (a:ℚ) / b ∧ (a:ℚ) / b < (2:ℚ) ^ (fl32exp a b + 1) := by
  have hbq : (0:ℚ) < (b:ℚ) := by exact_mod_cast hb
  have hcast_a_le : ((2 ^ natLog2 a : ℕ) : ℚ) ≤ (a:ℚ) := by
    exact_mod_cast natLog2_le a ha
  have hcast_a_lt : (a:ℚ) < ((2 ^ (natLog2 a + 1) : ℕ) : ℚ) := by
    exact_mod_cast natLog2_lt a ha
  have hcast_b_le : ((2 ^ natLog2 b : ℕ) : ℚ) ≤ (b:ℚ) := by
    exact_mod_cast natLog2_le b hb
  have hcast_b_lt : (b:ℚ) < ((2 ^ (natLog2 b + 1) : ℕ) : ℚ) := by
    exact_mod_cast natLog2_lt b hb
  have hpow_nat : ∀ m : ℕ, ((2 ^ m : ℕ) : ℚ) = (2:ℚ) ^ (m : ℤ) := by
    intro m
    rw [zpow_natCast]
    push_cast
    rfl
  have E1 : (2:ℚ) ^ ((natLog2 a : ℤ) - natLog2 b - 1) ≤ (a:ℚ) / b := by
    rw [le_div_iff hbq]
    calc (2:ℚ) ^ ((natLog2 a : ℤ) - natLog2 b - 1) * b
        ≤ (2:ℚ) ^ ((natLog2 a : ℤ) - natLog2 b - 1) * (2:ℚ) ^ ((natLog2 b : ℤ) + 1) := by
          apply mul_le_mul_of_nonneg_left _ (by positivity)
          rw [show ((natLog2 b : ℤ) + 1) = ((natLog2 b + 1 : ℕ) : ℤ) by push_cast; ring,
            ← hpow_nat]
          exact le_of_lt hcast_b_lt
      _ = (2:ℚ) ^ ((natLog2 a : ℕ) : ℤ) := by
          rw [← zpow_add₀ (two_ne_zero)]
          congr 1
          ring
      _ ≤ (a:ℚ) := by rw [← hpow_nat]; exact hcast_a_le
  have E2 : (a:ℚ) / b < (2:ℚ) ^ ((natLog2 a : ℤ) - natLog2 b + 1) := by
    rw [div_lt_iff hbq]
    calc (a:ℚ) < ((2 ^ (natLog2 a + 1) : ℕ) : ℚ) := hcast_a_lt
      _ = (2:ℚ) ^ ((natLog2 a : ℤ) - natLog2 b + 1) * (2:ℚ) ^ ((natLog2 b : ℕ) : ℤ) := by
          rw [hpow_nat, ← zpow_add₀ (two_ne_zero)]
          congr 1
          push_cast
          ring
      _ ≤ (2:ℚ) ^ ((natLog2 a : ℤ) - natLog2 b + 1) * b := by
          apply mul_le_mul_of_nonneg_left _ (by positivity)
          rw [← hpow_nat]
          exact hcast_b_le
  rw [fl32exp_def]
  split
  · next hpow =>
    refine ⟨(pow2leB_iff _ a b (by omega)).mp hpow, ?_⟩
    rw [show (natLog2 a : ℤ) - natLog2 b - 1 + 1 + 1 = (natLog2 a : ℤ) - natLog2 b + 1
      by ring]
    exact E2
  · next hpow =>
    refine ⟨E1, ?_⟩
    exact lt_of_not_le fun hc => hpow ((pow2leB_iff _ a b (by omega)).mpr hc)

theorem roundNearEven_err (n2 d2 : ℕ) (hd : 0 < d2) :
    |((roundNearEven n2 d2 : ℕ) : ℚ) - (n2:ℚ)/d2| ≤ 1/2 := by
  have hd2q : (0:ℚ) < (d2:ℚ) := by exact_mod_cast hd
  have hkey : (n2:ℚ) = (d2:ℚ) * ((n2/d2 : ℕ):ℚ) + ((n2 % d2 : ℕ):ℚ) := by
    exact_mod_cast (Nat.div_add_mod n2 d2).symm
  have hrlt : ((n2 % d2 : ℕ):ℚ) < d2 := by exact_mod_cast Nat.mod_lt n2 hd
  have hr0 : (0:ℚ) ≤ ((n2 % d2 : ℕ):ℚ) := by positivity
  set t : ℚ := ((n2 % d2 : ℕ):ℚ) / d2 with ht_def
  have ht0 : 0 ≤ t := by positivity
  have ht1 : t < 1 := by rw [ht_def, div_lt_one hd2q]; exact hrlt
  have hsplit : (n2:ℚ)/d2 = ((n2/d2 : ℕ):ℚ) + t := by
    rw [ht_def]
    rw [show ((n2/d2 : ℕ):ℚ) + ((n2 % d2 : ℕ):ℚ)/d2
      = ((d2:ℚ) * ((n2/d2 : ℕ):ℚ) + ((n2 % d2 : ℕ):ℚ)) / d2 from by field_simp; ring]
    rw [← hkey]
  unfold roundNearEven
  split_ifs with h1 h2 h3
  · have h1q : 2 * ((n2 % d2 : ℕ):ℚ) < d2 := by exact_mod_cast h1
    have htle : t ≤ 1/2 := by
      rw [ht_def, div_le_iff hd2q]
      linarith
    rw [hsplit, show ((n2/d2 : ℕ):ℚ) - (((n2/d2 : ℕ):ℚ) + t) = -t from by ring,
      abs_neg, abs_of_nonneg ht0]
    exact htle
  · have h2q : (d2:ℚ) < 2 * ((n2 % d2:ℕ):ℚ) := by exact_mod_cast h2
    have htge : 1/2 ≤ t := by
      rw [ht_def, le_div_iff hd2q]
      linarith
    rw [hsplit]
    push_cast
    rw [show ((n2/d2 : ℕ):ℚ) + 1 - (((n2/d2 : ℕ):ℚ) + t) = 1 - t from by ring,
      abs_of_nonneg (by linarith)]
    linarith
  · have heq : 2 * ((n2 % d2:ℕ):ℚ) = d2 := by
      exact_mod_cast (by omega : 2 * (n2 % d2) = d2)
    have hteq : t = 1/2 := by
      rw [ht_def, div_eq_iff (ne_of_gt hd2q)]
      linarith
    rw [hsplit, show ((n2/d2 : ℕ):ℚ) - (((n2/d2 : ℕ):ℚ) + t) = -t from by ring,
      abs_neg, abs_of_nonneg ht0, hteq]
  · have heq : 2 * ((n2 % d2:ℕ):ℚ) = d2 := by
      exact_mod_cast (by omega : 2 * (n2 % d2) = d2)
    have hteq : t = 1/2 := by
      rw [ht_def, div_eq_iff (ne_of_gt hd2q)]
      linarith
    rw [hsplit]
    push_cast
    rw [show ((n2/d2 : ℕ):ℚ) + 1 - (((n2/d2 : ℕ):ℚ) + t) = 1 - t from by ring, hteq,
      abs_of_nonneg (by norm_num)]
    norm_num

theorem rnd32_eq_of_pos (q : ℚ) (h : ¬ q ≤ 0) :
    rnd32 q =
      if 0 ≤ 23 - fl32exp q.num.toNat q.den then
        Rat.divInt
          (roundNearEven (q.num.toNat * 2 ^ (23 - fl32exp q.num.toNat q.den).toNat)
            q.den : ℤ) ((2 : ℤ) ^ (23 - fl32exp q.num.toNat q.den).toNat)
      else
        Rat.divInt
          ((roundNearEven q.num.toNat
            (q.den * 2 ^ (-(23 - fl32exp q.num.toNat q.den)).toNat) *
              2 ^ (-(23 - fl32exp q.num.toNat q.den)).toNat : ℕ) : ℤ) 1 := by
  simp only [rnd32, if_neg h]

theorem half_pow_le (q : ℚ) (e : ℤ) (h : (2:ℚ) ^ e ≤ q) :
    (1/2 : ℚ) * (2:ℚ) ^ (e - 23) ≤ q / 2 ^ 24 := by
  have h24 : ((2:ℚ) ^ (24:ℕ))⁻¹ = (2:ℚ) ^ (-(24:ℤ)) := by
    rw [← zpow_natCast 2 24, ← zpow_neg]
    norm_num
  have hhalf : (1/2 : ℚ) = (2:ℚ) ^ (-(1:ℤ)) := by
    rw [zpow_neg, zpow_one, one_div]
  have hleft : (1/2 : ℚ) * (2:ℚ) ^ (e - 23) = (2:ℚ) ^ e * (2:ℚ) ^ (-(24:ℤ)) := by
    rw [hhalf, ← zpow_add₀ (two_ne_zero' ℚ), ← zpow_add₀ (two_ne_zero' ℚ)]
    congr 1
    ring
  rw [hleft, div_eq_mul_inv, h24]
  exact mul_le_mul_of_nonneg_right h (by positivity)

theorem rnd32_err (q : ℚ) (hq : 0 < q) : |rnd32 q - q| ≤ q / 2 ^ 24 := by
  have hq' : ¬ q ≤ 0 := not_le.mpr hq
  have hnum : (0:ℤ) < q.num := Rat.num_pos.mpr hq
  have ha1 : 1 ≤ q.num.toNat := by omega
  have hb1 : 1 ≤ q.den := q.den_pos
  have hq_eq : ((q.num.toNat : ℕ) : ℚ) / (q.den : ℚ) = q := by
    rw [show ((q.num.toNat : ℕ) : ℚ) = ((q.num.toNat : ℤ) : ℚ) from by push_cast; rfl,
      Int.toNat_of_nonneg (le_of_lt hnum)]
    exact Rat.num_div_den q
  obtain ⟨hE1, hE2⟩ := fl32exp_spec q.num.toNat q.den ha1 hb1
  rw [hq_eq] at hE1 hE2
  rw [rnd32_eq_of_pos q hq']
  split
  · next hs =>
    set m := (23 - fl32exp q.num.toNat q.den).toNat with hm_def
    have hms : (m : ℤ) = 23 - fl32exp q.num.toNat q.den := Int.toNat_of_nonneg hs
    have hpm : (0:ℚ) < (2:ℚ) ^ m := by positivity
    have hrne := roundNearEven_err (q.num.toNat * 2 ^ m) q.den (by omega)
    have hscale : ((q.num.toNat * 2 ^ m : ℕ) : ℚ) / (q.den:ℚ) = q * (2:ℚ) ^ m := by
      push_cast
      rw [mul_div_right_comm, hq_eq]
    rw [hscale] at hrne
    have hdiv : Rat.divInt (roundNearEven (q.num.toNat * 2 ^ m) q.den : ℤ)
        ((2 : ℤ) ^ m) =
        ((roundNearEven (q.num.toNat * 2 ^ m) q.den : ℕ) : ℚ) / (2:ℚ) ^ m := by
      rw [Rat.divInt_eq_div]
      push_cast
      rfl
    rw [hdiv]
    have hsub : ((roundNearEven (q.num.toNat * 2 ^ m) q.den : ℕ) : ℚ) / (2:ℚ) ^ m - q
        = (((roundNearEven (q.num.toNat * 2 ^ m) q.den : ℕ) : ℚ) - q * (2:ℚ) ^ m)
          / (2:ℚ) ^ m := by
      field_simp
      ring
    rw [hsub, abs_div, abs_of_pos hpm]
    have step1 : |((roundNearEven (q.num.toNat * 2 ^ m) q.den : ℕ) : ℚ) - q * (2:ℚ) ^ m|
        / (2:ℚ) ^ m ≤ (1/2) / (2:ℚ) ^ m := by
      exact div_le_div_of_nonneg_right hrne (le_of_lt hpm)
    refine le_trans step1 ?_
    have hrw : ((1:ℚ)/2) / (2:ℚ) ^ m
        = (1/2 : ℚ) * (2:ℚ) ^ (fl32exp q.num.toNat q.den - 23) := by
      rw [div_eq_mul_inv]
      congr 1
      rw [← zpow_natCast 2 m, ← zpow_neg]
      congr 1
      omega
    rw [hrw]
    exact half_pow_le q _ hE1
  · next hs =>
    set m := (-(23 - fl32exp q.num.toNat q.den)).toNat with hm_def
    have hms : (m : ℤ) = fl32exp q.num.toNat q.den - 23 := by omega
    have hpm : (0:ℚ) < (2:ℚ) ^ m := by positivity
    have hbm : 0 < q.den * 2 ^ m := by positivity
    have hrne := roundNearEven_err q.num.toNat (q.den * 2 ^ m) hbm
    have hscale : ((q.num.toNat : ℕ) : ℚ) / ((q.den * 2 ^ m : ℕ):ℚ) = q / (2:ℚ) ^ m := by
      push_cast
      rw [← div_div, hq_eq]
    rw [hscale] at hrne
    have hdiv : Rat.divInt ((roundNearEven q.num.toNat (q.den * 2 ^ m) * 2 ^ m : ℕ) : ℤ) 1
        = ((roundNearEven q.num.toNat (q.den * 2 ^ m) : ℕ) : ℚ) * (2:ℚ) ^ m := by
      rw [Rat.divInt_eq_div]
      push_cast
      ring
    rw [hdiv]
    have hsub : ((roundNearEven q.num.toNat (q.den * 2 ^ m) : ℕ) : ℚ) * (2:ℚ) ^ m - q
        = (((roundNearEven q.num.toNat (q.den * 2 ^ m) : ℕ) : ℚ) - q / (2:ℚ) ^ m)
          * (2:ℚ) ^ m := by
      field_simp
    rw [hsub, abs_mul, abs_of_pos hpm]
    have step1 : |((roundNearEven q.num.toNat (q.den * 2 ^ m) : ℕ) : ℚ) - q / (2:ℚ) ^ m|
        * (2:ℚ) ^ m ≤ (1/2) * (2:ℚ) ^ m := by
      exact mul_le_mul_of_nonneg_right hrne (le_of_lt hpm)
    refine le_trans step1 ?_
    have hrw : ((1:ℚ)/2) * (2:ℚ) ^ m
        = (1/2 : ℚ) * (2:ℚ) ^ (fl32exp q.num.toNat q.den - 23) := by
      congr 1
      rw [← zpow_natCast 2 m, hms]
    rw [hrw]
    exact half_pow_le q _ hE1

theorem rnd32_bounds (q : ℚ) (hq : 0 < q) :
    q - q / 2 ^ 24 ≤ rnd32 q ∧ rnd32 q ≤ q + q / 2 ^ 24 := by
  have h := abs_le.mp (rnd32_err q hq)
  constructor <;> linarith [h.1, h.2]

theorem rnd32_pos (q : ℚ) (hq : 0 < q) : 0 < rnd32 q := by
  have h := (rnd32_bounds q hq).1
  have hlt : q / 2 ^ 24 < q := by
    apply div_lt_self hq
    norm_num
  linarith

theorem qdiv100_eq (q : ℚ) : qdiv100 q = q / 100 := by
  unfold qdiv100
  rw [Rat.divInt_eq_div]
  push_cast
  rw [← div_div, Rat.num_div_den]

theorem qmulN_eq (q : ℚ) (p : ℕ) : qmulN q p = q * p := by
  unfold qmulN
  rw [Rat.divInt_eq_div]
  push_cast
  rw [mul_div_right_comm, Rat.num_div_den]

theorem divIntNat_eq (n : ℕ) : Rat.divInt (n : ℤ) 1 = (n : ℚ) := by
  rw [Rat.divInt_eq_div]
  push_cast
  rw [div_one]

theorem float32index_eq (n p : ℕ) :
    float32index n p = rnd32 (rnd32 (rnd32 (n:ℚ) / 100) * p) := by
  unfold float32index
  rw [divIntNat_eq, qdiv100_eq, qmulN_eq]

theorem float32index_bounds (n p : ℕ) (hn : 1 ≤ n) (hp1 : 1 ≤ p) (hp99 : p ≤ 99) :
    0 < float32index n p ∧ float32index n p < n := by
  have hnq : (0:ℚ) < n := by exact_mod_cast hn
  have hc0 : (0:ℚ) < 1 + 1/2^24 := by norm_num
  set c : ℚ := 1 + 1/2^24 with hc_def
  rw [float32index_eq]
  have hx_pos : 0 < rnd32 (n:ℚ) := rnd32_pos _ hnq
  have hx_le : rnd32 (n:ℚ) ≤ n * c := by
    have h := (rnd32_bounds (n:ℚ) hnq).2
    have h2 : (n:ℚ) + n/2^24 = n * c := by rw [hc_def]; ring
    exact h.trans_eq h2
  set x := rnd32 (n:ℚ) with hx_def
  have hq2 : (0:ℚ) < x / 100 := by positivity
  have hy_pos : 0 < rnd32 (x/100) := rnd32_pos _ hq2
  have hy_le : rnd32 (x/100) ≤ (n * c / 100) * c := by
    have h1 := (rnd32_bounds (x/100) hq2).2
    have h2 : x/100 + (x/100)/2^24 = (x/100) * c := by rw [hc_def]; ring
    have h3 : (x/100) * c ≤ (n * c / 100) * c := by
      apply mul_le_mul_of_nonneg_right _ (le_of_lt hc0)
      exact div_le_div_of_nonneg_right hx_le (by norm_num)
    exact (h1.trans_eq h2).trans h3
  set y := rnd32 (x/100) with hy_def
  have hpq : (0:ℚ) < p := by exact_mod_cast hp1
  have hyp_pos : (0:ℚ) < y * p := mul_pos hy_pos hpq
  have hz_pos : 0 < rnd32 (y * p) := rnd32_pos _ hyp_pos
  have hz_le : rnd32 (y * p) ≤ ((n * c / 100) * c) * p * c := by
    have h1 := (rnd32_bounds (y*p) hyp_pos).2
    have h2 : y*p + (y*p)/2^24 = (y*p)*c := by rw [hc_def]; ring
    have h3 : (y*p)*c ≤ ((n*c/100)*c)*p*c := by
      apply mul_le_mul_of_nonneg_right _ (le_of_lt hc0)
      exact mul_le_mul_of_nonneg_right hy_le (by positivity)
    exact (h1.trans_eq h2).trans h3
  refine ⟨hz_pos, lt_of_le_of_lt hz_le ?_⟩
  have hp99q : (p:ℚ) ≤ 99 := by exact_mod_cast hp99
  have hA : (0:ℚ) ≤ (n*c/100)*c := by positivity
  have hkey : ((n*c/100)*c)*p*c ≤ ((n*c/100)*c)*99*c :=
    mul_le_mul_of_nonneg_right (mul_le_mul_of_nonneg_left hp99q hA) (le_of_lt hc0)
  refine lt_of_le_of_lt hkey ?_
  have heq : ((n*c/100)*c)*99*c = n * (c^3 * 99/100) := by ring
  rw [heq]
  have hfrac : c^3 * 99/100 < 1 := by rw [hc_def]; norm_num
  calc (n:ℚ) * (c^3*99/100) < n * 1 := mul_lt_mul_of_pos_left hfrac hnq
    _ = n := mul_one _

/-- Claim C10: for every retained sample size `n ≥ 1` and every
`p ∈ {50, 90, 99}`, the percentile index
`int(float32(n) / 100 * float32(p))` computed by `distribution.Read`
lies in `[0, n)`, so the lookup stays inside the sorted retained prefix
and `Read` cannot panic on a non-empty generation. -/
theorem c10_percentile_index_in_bounds (n p : ℕ) (hn : 1 ≤ n)
    (hp : p = 50 ∨ p = 90 ∨ p = 99) :
    0 ≤ pIndex n p ∧ pIndex n p < n := by
  have hp1 : 1 ≤ p := by rcases hp with h | h | h <;> omega
  have hp99 : p ≤ 99 := by rcases hp with h | h | h <;> omega
  obtain ⟨hz_pos, hz_lt⟩ := float32index_bounds n p hn hp1 hp99
  unfold pIndex truncToInt
  rw [if_neg (not_lt.mpr (le_of_lt hz_pos))]
  have hfl : (float32index n p).floor = ⌊float32index n p⌋ := by
    rw [Rat.floor_def', Rat.floor_def]
  rw [hfl]
  constructor
  · exact Int.le_floor.mpr (by exact_mod_cast le_of_lt hz_pos)
  · exact Int.floor_lt.mpr (by exact_mod_cast hz_lt)

/-- Witness for `c10_percentile_index_in_bounds` at the default capacity
`n = 1000` and `p = 99`. -/
theorem c10_percentile_index_in_bounds_witness :
    (1 ≤ 1000 ∧ ((99 : ℕ) = 50 ∨ (99 : ℕ) = 90 ∨ (99 : ℕ) = 99)) ∧
    0 ≤ pIndex 1000 99 ∧ pIndex 1000 99 < 1000 := by
  exact ⟨⟨by norm_num, Or.inr (Or.inr rfl)⟩,
    c10_percentile_index_in_bounds 1000 99 (by norm_num) (Or.inr (Or.inr rfl))⟩

/-! ## Claim C2 -/

/-- For every retained sample size up to 105 the single-precision index
agrees with the infinitely-precise `floor(n * p / 100)`; `n = 106` is
the first size where they differ (see the counterexample). -/
theorem pIndex_eq_floor_below_106 : ∀ n : ℕ, n < 106 → 1 ≤ n →
    pIndex n 50 = ((n * 50 / 100 : ℕ) : ℤ) ∧
    pIndex n 90 = ((n * 90 / 100 : ℕ) : ℤ) ∧
    pIndex n 99 = ((n * 99 / 100 : ℕ) : ℤ) := by decide

theorem insertSorted_length (x : ℚ) (l : List ℚ) :
    (insertSorted x l).length = l.length + 1 := by
  induction l with
  | nil => rfl
  | cons y ys ih =>
    unfold insertSorted
    split_ifs <;> simp_all

theorem sortAsc_length (l : List ℚ) : (sortAsc l).length = l.length := by
  induction l with
  | nil => rfl
  | cons x xs ih =>
    show (insertSorted x (sortAsc xs)).length = _
    rw [insertSorted_length, ih]
    rfl

theorem getD_append_left (l₁ l₂ : List ℚ) (i : ℕ) (d : ℚ) (h : i < l₁.length) :
    (l₁ ++ l₂).getD i d = l₁.getD i d := by
  simp [List.getD_eq_getElem?_getD, List.getElem?_append_left h]

theorem Read_lookup_percentiles (d : distribution) (h : d.count ≠ 0) :
    d.Read.lookup "p50" = some ((sortAsc (d.items.take d.sampleSize) ++
      d.items.drop d.sampleSize).getD (pIndex d.sampleSize 50).toNat 0) ∧
    d.Read.lookup "p90" = some ((sortAsc (d.items.take d.sampleSize) ++
      d.items.drop d.sampleSize).getD (pIndex d.sampleSize 90).toNat 0) ∧
    d.Read.lookup "p99" = some ((sortAsc (d.items.take d.sampleSize) ++
      d.items.drop d.sampleSize).getD (pIndex d.sampleSize 99).toNat 0) := by
  unfold distribution.Read
  rw [if_neg h]
  exact ⟨rfl, rfl, rfl⟩

/-- Claim C2 (counterexample): on the reachable generation holding the
106 values `0, 1, …, 105` (`n = 106`), `Read` reports `p50 = 52`, the
element at single-precision index `52`, whereas the claimed formula
`floor(106 * 50 / 100) = 53` picks the element `53`. -/
theorem c2_percentile_floor_counterexample :
    ((newDistribution 106).RecordAll
      ((List.range 106).map (fun k => ((k : ℚ), 0)))).Read.lookup "p50" = some 52 ∧
    (sortAsc (((newDistribution 106).RecordAll
      ((List.range 106).map (fun k => ((k : ℚ), 0)))).items.take 106)).getD
        (106 * 50 / 100) 0 = 53 ∧
    ((52 : ℚ) ≠ 53) := by decide

/-- Claim C2 (amended): the percentile reported by `Read` is the element
of the sorted retained sample at index `int(float32(n)/100*float32(p))`;
for every retained sample size `1 ≤ n ≤ 105` — in particular for the
spec's example `n = 10`, where `p50` is the element at index
`floor(10*50/100) = 5` — that single-precision index coincides with
`floor(n * p / 100)`, but not for all `n` (first deviation at
`n = 106`, `p = 50`). -/
theorem c2_percentile_formula (d : distribution) (h1 : 1 ≤ d.sampleSize)
    (h105 : d.sampleSize ≤ 105) :
    d.Read.lookup "p50" =
      some ((sortAsc (d.items.take d.sampleSize)).getD (d.sampleSize * 50 / 100) 0) ∧
    d.Read.lookup "p90" =
      some ((sortAsc (d.items.take d.sampleSize)).getD (d.sampleSize * 90 / 100) 0) ∧
    d.Read.lookup "p99" =
      some ((sortAsc (d.items.take d.sampleSize)).getD (d.sampleSize * 99 / 100) 0) := by
  have hs_eq : d.sampleSize = Nat.min d.count d.items.length := rfl
  have hminl := Nat.min_le_left d.count d.items.length
  have hminr := Nat.min_le_right d.count d.items.length
  have h1' : 1 ≤ Nat.min d.count d.items.length := by rw [← hs_eq]; exact h1
  have h1c : 1 ≤ d.count := le_trans h1' hminl
  have hcount : d.count ≠ 0 := by omega
  have hn_le_len : d.sampleSize ≤ d.items.length := by
    rw [hs_eq]
    exact hminr
  have hlen : (d.items.take d.sampleSize).length = d.sampleSize := by
    rw [List.length_take]
    exact Nat.min_eq_left hn_le_len
  obtain ⟨f50, f90, f99⟩ :=
    pIndex_eq_floor_below_106 d.sampleSize (by omega) h1
  obtain ⟨l50, l90, l99⟩ := Read_lookup_percentiles d hcount
  have hidx : ∀ p : ℕ, p ≤ 99 → d.sampleSize * p / 100 < d.sampleSize := by
    intro p hp
    have h99 : d.sampleSize * p / 100 ≤ d.sampleSize * 99 / 100 :=
      Nat.div_le_div_right (Nat.mul_le_mul_left _ hp)
    have : d.sampleSize * 99 / 100 < d.sampleSize := by
      rw [Nat.div_lt_iff_lt_mul (by norm_num)]
      omega
    omega
  refine ⟨?_, ?_, ?_⟩
  · rw [l50, f50]
    rw [Int.toNat_natCast]
    rw [getD_append_left]
    rw [sortAsc_length, hlen]
    exact hidx 50 (by norm_num)
  · rw [l90, f90]
    rw [Int.toNat_natCast]
    rw [getD_append_left]
    rw [sortAsc_length, hlen]
    exact hidx 90 (by norm_num)
  · rw [l99, f99]
    rw [Int.toNat_natCast]
    rw [getD_append_left]
    rw [sortAsc_length, hlen]
    exact hidx 99 (by norm_num)

/-- Witness for `c2_percentile_formula`: the spec's own example — ten
records whose retained sorted sample is `[1, …, 10]` — reports
`p50 = 6`, the element at index `floor(10*50/100) = 5`. -/
theorem c2_percentile_formula_witness :
    (1 ≤ ((newDistribution 10).RecordAll
        ((List.range 10).map (fun k => (((k + 1 : ℕ) : ℚ), 0)))).sampleSize ∧
      ((newDistribution 10).RecordAll
        ((List.range 10).map (fun k => (((k + 1 : ℕ) : ℚ), 0)))).sampleSize ≤ 105) ∧
    ((newDistribution 10).RecordAll
      ((List.range 10).map (fun k => (((k + 1 : ℕ) : ℚ), 0)))).Read.lookup "p50" = some 6 := by
  have h := c2_percentile_formula
    ((newDistribution 10).RecordAll ((List.range 10).map (fun k => (((k + 1 : ℕ) : ℚ), 0))))
    (by decide) (by decide)
  exact ⟨⟨by decide, by decide⟩, h.1.trans (by decide)⟩
